import Mathlib

/-!
Shallow embedding of the `advanced-shell` repository (Go) for verification.

The job-control subsystem (`JobManager` and its operations), the command
parser/validator (`CommandParser`), and the dispatch path
(`Shell.processInput`, `CommandHandler.handleFG` / `handleBG`) are translated
from the Go sources.  Machine-level effects are made explicit:

* the job table `map[int]*types.Job` becomes a list of `Job` records looked
  up by id (`jobCounter` is carried alongside);
* `job.Cmd != nil && job.Cmd.Process != nil` becomes the Boolean field
  `hasProcess` of a `Job`;
* a call to `Process.Signal` / `Process.Kill` may fail at the OS level; the
  outcome of such a call is passed in as the Boolean parameter `sigOk`;
* `time.Now()` is passed in as the parameter `now : Nat`;
* the signals actually delivered by an operation are collected in the
  `signals` field of its result, and `Cmd.Wait()` is recorded by the
  `waited` flag of the foreground result.
-/

/-- `types.JobStatus`: `Running | Stopped | Done`. -/
inductive JobStatus where
  | Running
  | Stopped
  | Done
deriving DecidableEq, Repr

/-- `types.Job`.  `hasProcess` models `Cmd != nil && Cmd.Process != nil`;
timestamps are abstract `Nat` instants. -/
structure Job where
  id : Nat
  pid : Nat
  command : String
  status : JobStatus
  hasProcess : Bool
  startTime : Nat
  endTime : Option Nat
  background : Bool
deriving DecidableEq, Repr

/-- `shell.JobManager`: the job table (`map[int]*types.Job`, here a list
looked up by `id`) together with the id counter. -/
structure JobManager where
  jobs : List Job
  jobCounter : Nat
deriving DecidableEq, Repr

/-- `NewJobManager()`. -/
def NewJobManager : JobManager := { jobs := [], jobCounter := 0 }

/-- The errors returned by the job-control operations. -/
inductive JobError where
  | notFound (id : Nat)
  | alreadyDone (id : Nat)
  | notStopped (id : Nat)
  | signalFailed (id : Nat)
deriving DecidableEq, Repr

/-- OS signals delivered by the job-control operations:
`syscall.SIGCONT` and `Process.Kill()`. -/
inductive Signal where
  | sigcont
  | kill
deriving DecidableEq, Repr

/-- Result of a job-control operation: the table afterwards, the signals
successfully delivered, and the returned value or error. -/
structure OpResult (α : Type) where
  jm : JobManager
  signals : List Signal
  out : Except JobError α

/-- `JobManager.GetJob`: map lookup by id. -/
def JobManager.GetJob (jm : JobManager) (jobID : Nat) : Option Job :=
  jm.jobs.find? (fun j => j.id == jobID)

/-- `JobManager.GetAllJobs`. -/
def JobManager.GetAllJobs (jm : JobManager) : List Job :=
  jm.jobs

/-- `delete(jm.jobs, jobID)`. -/
def removeJob (jobs : List Job) (jobID : Nat) : List Job :=
  jobs.filter (fun j => j.id != jobID)

/-- Mutation of the `*types.Job` record stored under `jobID`
(Go mutates through the pointer; here the entry is rewritten in place). -/
def updateJob (jobs : List Job) (jobID : Nat) (f : Job → Job) : List Job :=
  jobs.map (fun j => if j.id == jobID then f j else j)

/-- The record after `job.Status = Running; job.Background = false` in
`BringToForeground`. -/
def fgRunning (j : Job) : Job :=
  { j with status := .Running, background := false }

/-- The record after `Cmd.Wait()` returns:
`job.Status = Done; job.EndTime = now`. -/
def fgDone (j : Job) (now : Nat) : Job :=
  { fgRunning j with status := .Done, endTime := some now }

/-- The record update of `KillJob`: `job.Status = Done;
job.EndTime = now`. -/
def killUpd (now : Nat) (x : Job) : Job :=
  { x with status := .Done, endTime := some now }

/-- The record update of `ResumeInBackground`: `job.Status = Running;
job.Background = true`. -/
def bgUpd (x : Job) : Job :=
  { x with status := .Running, background := true }

/-- The record states a foregrounded job goes through: after
`Status = Running; Background = false` and before `Cmd.Wait()`
(`runningRecord`), and after the wait returns (`finalRecord`).
`waited` records whether `Cmd.Wait()` was called. -/
structure FGInfo where
  runningRecord : Job
  finalRecord : Job
  waited : Bool
deriving DecidableEq, Repr

/-- `JobManager.BringToForeground`, line by line:
not-found and already-completed errors first; under
`Cmd != nil && Cmd.Process != nil`, a stopped job gets `SIGCONT`
(failure returns `failed to resume job` with no mutation), then
`Status = Running; Background = false`, then `Cmd.Wait()` blocks until the
process exits, then `Status = Done; EndTime = now`; in every success path
the entry is deleted from the table. -/
def JobManager.BringToForeground (jm : JobManager) (jobID : Nat)
    (sigOk : Bool) (now : Nat) : OpResult FGInfo :=
  match jm.GetJob jobID with
  | none => ⟨jm, [], .error (.notFound jobID)⟩
  | some job =>
    if job.status = .Done then ⟨jm, [], .error (.alreadyDone jobID)⟩
    else if job.hasProcess then
      if job.status = .Stopped ∧ sigOk = false then
        ⟨jm, [], .error (.signalFailed jobID)⟩
      else
        let sigs := if job.status = .Stopped then [Signal.sigcont] else []
        ⟨{ jm with jobs := removeJob jm.jobs jobID }, sigs,
          .ok ⟨fgRunning job, fgDone job now, true⟩⟩
    else
      ⟨{ jm with jobs := removeJob jm.jobs jobID }, [], .ok ⟨job, job, false⟩⟩

/-- `JobManager.ResumeInBackground`: not-found, already-completed, then
`not stopped` errors; under a live process handle, `SIGCONT` (failure
returns an error with no mutation), then `Status = Running;
Background = true`.  Does not wait; the entry stays in the table. -/
def JobManager.ResumeInBackground (jm : JobManager) (jobID : Nat)
    (sigOk : Bool) : OpResult Unit :=
  match jm.GetJob jobID with
  | none => ⟨jm, [], .error (.notFound jobID)⟩
  | some job =>
    if job.status = .Done then ⟨jm, [], .error (.alreadyDone jobID)⟩
    else if job.status ≠ .Stopped then ⟨jm, [], .error (.notStopped jobID)⟩
    else if job.hasProcess then
      if sigOk = false then ⟨jm, [], .error (.signalFailed jobID)⟩
      else
        ⟨{ jm with jobs := updateJob jm.jobs jobID bgUpd },
          [Signal.sigcont], .ok ()⟩
    else ⟨jm, [], .ok ()⟩

/-- `JobManager.KillJob`: not-found and already-completed errors; under a
live process handle, `Process.Kill()` (failure returns an error with no
mutation), then `Status = Done; EndTime = now`.  The entry stays in the
table (removal is `CleanupCompletedJobs`'s business). -/
def JobManager.KillJob (jm : JobManager) (jobID : Nat)
    (sigOk : Bool) (now : Nat) : OpResult Unit :=
  match jm.GetJob jobID with
  | none => ⟨jm, [], .error (.notFound jobID)⟩
  | some job =>
    if job.status = .Done then ⟨jm, [], .error (.alreadyDone jobID)⟩
    else if job.hasProcess then
      if sigOk = false then ⟨jm, [], .error (.signalFailed jobID)⟩
      else
        ⟨{ jm with jobs := updateJob jm.jobs jobID (killUpd now) },
          [Signal.kill], .ok ()⟩
    else ⟨jm, [], .ok ()⟩

/-- `JobManager.CleanupCompletedJobs`: delete every entry whose status is
`Done`. -/
def JobManager.CleanupCompletedJobs (jm : JobManager) : JobManager :=
  { jm with jobs := jm.jobs.filter (fun j => j.status != .Done) }

/-- Modelled from the spec: `register(processHandle, commandText,
background) -> jobId`.  The registration operation of the Job Table is not
among the provided sources (only the `JobManager` struct with its `jobs`
map and `jobCounter` appears); per the spec it allocates the next integer
id, and inserts a new Job with status `Running` and `startTime = now`.
The process handle passed in makes `hasProcess` true. -/
def JobManager.register (jm : JobManager) (pid : Nat) (commandText : String)
    (background : Bool) (now : Nat) : JobManager × Nat :=
  let newID := jm.jobCounter + 1
  ({ jobs := jm.jobs ++
      [{ id := newID, pid := pid, command := commandText,
         status := .Running, hasProcess := true, startTime := now,
         endTime := none, background := background }],
     jobCounter := newID }, newID)

/-- Well-formedness of the table: ids are positive, bounded by the counter,
and pairwise distinct (at most one record per id). -/
def WF (jm : JobManager) : Prop :=
  (∀ j ∈ jm.jobs, 0 < j.id ∧ j.id ≤ jm.jobCounter) ∧
  (jm.jobs.map Job.id).Nodup

/-! ## Parser (`CommandParser`) -/

/-- The single-quote character, `Char.ofNat 39`. -/
def squote : Char := Char.ofNat 39

/-- The `rune(0)` used by the Go code to reset `quoteChar`. -/
def nulChar : Char := Char.ofNat 0

/-- The loop body of `CommandParser.tokenize`: walks the runes with the
accumulated `current` token, the `inQuotes` flag and the pending
`quoteChar`; a quote char toggles or is literal depending on the span
state, space and tab split outside quotes, everything else is appended. -/
def tokenizeAux : List Char → List Char → Bool → Char → List (List Char)
  | [], current, _, _ =>
    if current.isEmpty then [] else [current]
  | c :: rest, current, inQuotes, quoteChar =>
    if c = '"' ∨ c = squote then
      if inQuotes = false then tokenizeAux rest current true c
      else if c = quoteChar then tokenizeAux rest current false nulChar
      else tokenizeAux rest (current ++ [c]) inQuotes quoteChar
    else if c = ' ' ∨ c = '\t' then
      if inQuotes then tokenizeAux rest (current ++ [c]) inQuotes quoteChar
      else if current.isEmpty = false then
        current :: tokenizeAux rest [] inQuotes quoteChar
      else tokenizeAux rest current inQuotes quoteChar
    else tokenizeAux rest (current ++ [c]) inQuotes quoteChar

/-- `CommandParser.tokenize`. -/
def tokenize (input : String) : List String :=
  (tokenizeAux input.data [] false nulChar).map fun cs => String.mk cs

/-- Go whitespace for `strings.TrimSpace` (ASCII relevant subset). -/
def isGoSpace (c : Char) : Bool :=
  c = ' ' ∨ c = '\t' ∨ c = '\n' ∨ c = '\r'

/-- `strings.TrimSpace`. -/
def goTrimSpace (s : List Char) : List Char :=
  ((s.dropWhile isGoSpace).reverse.dropWhile isGoSpace).reverse

/-- `shell.ParsedCommand`. -/
structure ParsedCommand where
  command : String
  args : List String
  background : Bool
  pipes : List (List String)
deriving DecidableEq, Repr

/-- `CommandParser.Parse`: trim, strip one trailing `&` (setting
`background`) and trim again, tokenize; `none` when no tokens remain.
`Command` is token 0 and `Args` is the full token list. -/
def Parse (input : String) : Option ParsedCommand :=
  let inp := goTrimSpace input.data
  if inp.isEmpty then none
  else
    let background := inp.getLast? = some '&'
    let inp := if inp.getLast? = some '&' then goTrimSpace inp.dropLast else inp
    let args := (tokenizeAux inp [] false nulChar).map fun cs => String.mk cs
    match args with
    | [] => none
    | a :: rest =>
      some { command := a, args := a :: rest, background := background,
             pipes := [a :: rest] }

/-- `CommandParser.IsBuiltinCommand`: membership in the fixed builtin set. -/
def IsBuiltinCommand (command : String) : Bool :=
  match command with
  | "cd" | "pwd" | "exit" | "echo" | "clear" | "ls" | "cat" | "mkdir"
  | "rmdir" | "rm" | "touch" | "kill" | "jobs" | "fg" | "bg" | "help" => true
  | _ => false

/-- `sub` is a leading segment of `s`. -/
def listStartsWith : List Char → List Char → Bool
  | [], _ => true
  | _ :: _, [] => false
  | a :: as, b :: bs => a = b && listStartsWith as bs

/-- `strings.Contains`: `sub` occurs contiguously in `s`. -/
def listContainsSub (sub : List Char) : List Char → Bool
  | [] => sub.isEmpty
  | c :: rest => listStartsWith sub (c :: rest) || listContainsSub sub rest

/-- The characters of `strings.ContainsAny(parsed.Command, "|;&<>(){}[]")`. -/
def isSpecialChar (c : Char) : Bool :=
  c = '|' ∨ c = ';' ∨ c = '&' ∨ c = '<' ∨ c = '>' ∨ c = '(' ∨ c = ')' ∨
  c = Char.ofNat 123 ∨ c = Char.ofNat 125 ∨ c = '[' ∨ c = ']'

/-- The errors of `CommandParser.ValidateCommand`, one per check. -/
inductive ValidationError where
  | dangerousPath
  | invalidChars
  | nameTooLong
  | argTooLong (i : Nat)
  | tooManyArgs
deriving DecidableEq, Repr

/-- The `for i, arg := range parsed.Args` length check: index of the first
argument longer than 1024 characters. -/
def firstLongArg : List String → Nat → Option Nat
  | [], _ => none
  | a :: rest, i =>
    if 1024 < a.length then some i else firstLongArg rest (i + 1)

/-- `CommandParser.ValidateCommand`, checks in source order; `none` means
valid.  (Go measures `len` in bytes; lengths here are in characters, which
coincides on ASCII input.) -/
def ValidateCommand (parsed : Option ParsedCommand) : Option ValidationError :=
  match parsed with
  | none => none
  | some p =>
    if p.command = "" then none
    else if listContainsSub ['.', '.'] p.command.data then
      some .dangerousPath
    else if p.command.data.any isSpecialChar then some .invalidChars
    else if 256 < p.command.length then some .nameTooLong
    else
      match firstLongArg p.args 0 with
      | some i => some (.argTooLong i)
      | none =>
        if 100 < p.args.length then some .tooManyArgs else none

/-! ## Dispatch (`Shell.processInput`) and job-control builtins
(`CommandHandler.handleFG`, `CommandHandler.handleBG`) -/

/-- Digit accumulator for `strconv.Atoi`. -/
def digitsValAux : List Char → Nat → Option Nat
  | [], acc => some acc
  | c :: rest, acc =>
    if c.isDigit then digitsValAux rest (acc * 10 + (c.toNat - 48))
    else none

/-- Value of a non-empty all-digit string. -/
def digitsVal (l : List Char) : Option Nat :=
  if l.isEmpty then none else digitsValAux l 0

/-- `strconv.Atoi`: optional sign then digits (64-bit overflow is not
modelled; no call site involves values near the bound). -/
def Atoi (s : String) : Option Int :=
  match s.data with
  | '+' :: rest => (digitsVal rest).map fun n => (n : Int)
  | '-' :: rest => (digitsVal rest).map fun n => -(n : Int)
  | l => (digitsVal l).map fun n => (n : Int)

/-- The error shapes surfaced by `processInput` and the handlers. -/
inductive ShellError where
  /-- a `ValidateCommand` rejection -/
  | validation (e : ValidationError)
  /-- `%s: command not found` (name did not resolve on PATH) -/
  | notFound (name : String)
  /-- `%s: command not found (only built-in commands are supported)` -/
  | notSupported (name : String)
  /-- an argument-shape error produced by a builtin handler itself -/
  | builtinErr (msg : String)
  /-- an error propagated from a `JobManager` operation -/
  | jobCtl (e : JobError)
deriving DecidableEq, Repr

/-- `CommandHandler.handleFG`: argument-count checks, id parsing and
positivity checks, then the `GetAllJobs`-empty check, and only then
`BringToForeground`. -/
def handleFG (jm : JobManager) (args : List String) (sigOk : Bool)
    (now : Nat) : JobManager × Option ShellError :=
  if args.length < 2 then
    (jm, some (.builtinErr "fg: missing job ID"))
  else if 2 < args.length then
    (jm, some (.builtinErr "fg: too many arguments"))
  else
    let jobIDStr := (args.get? 1).getD ""
    if jobIDStr = "" then (jm, some (.builtinErr "fg: empty job ID"))
    else
      match Atoi jobIDStr with
      | none => (jm, some (.builtinErr "fg: invalid job ID: not a number"))
      | some jobID =>
        if jobID ≤ 0 then
          (jm, some (.builtinErr "fg: invalid job ID: must be positive"))
        else if jm.GetAllJobs.length = 0 then
          (jm, some (.builtinErr "fg: no jobs to bring to foreground"))
        else
          let r := jm.BringToForeground jobID.toNat sigOk now
          match r.out with
          | .error e => (r.jm, some (.jobCtl e))
          | .ok _ => (r.jm, none)

/-- `CommandHandler.handleBG`: same shape as `handleFG`, ending in
`ResumeInBackground`. -/
def handleBG (jm : JobManager) (args : List String) (sigOk : Bool) :
    JobManager × Option ShellError :=
  if args.length < 2 then
    (jm, some (.builtinErr "bg: missing job ID"))
  else if 2 < args.length then
    (jm, some (.builtinErr "bg: too many arguments"))
  else
    let jobIDStr := (args.get? 1).getD ""
    if jobIDStr = "" then (jm, some (.builtinErr "bg: empty job ID"))
    else
      match Atoi jobIDStr with
      | none => (jm, some (.builtinErr "bg: invalid job ID: not a number"))
      | some jobID =>
        if jobID ≤ 0 then
          (jm, some (.builtinErr "bg: invalid job ID: must be positive"))
        else if jm.GetAllJobs.length = 0 then
          (jm, some (.builtinErr "bg: no jobs to resume in background"))
        else
          let r := jm.ResumeInBackground jobID.toNat sigOk
          match r.out with
          | .error e => (r.jm, some (.jobCtl e))
          | .ok _ => (r.jm, none)

/-- `CommandHandler.HandleCommand` restricted to its effect on the job
table.  `fg`, `bg` and `jobs` are the handlers that touch the table
(`handleJobs` runs `CleanupCompletedJobs` then lists).  The filesystem and
display builtins (`cd`, `pwd`, `echo`, ..., and `kill`, which signals raw
OS pids, not table jobs) never touch the table; their filesystem outcomes
are outside the model, so they are table-preserving with no reported
error.  `exit` terminates the process, so its post-state is unobservable. -/
def HandleCommand (jm : JobManager) (parsed : ParsedCommand) (sigOk : Bool)
    (now : Nat) : JobManager × Option ShellError :=
  match parsed.command with
  | "fg" => handleFG jm parsed.args sigOk now
  | "bg" => handleBG jm parsed.args sigOk
  | "jobs" => (jm.CleanupCompletedJobs, none)
  | _ => (jm, none)

/-- `Shell.processInput`: parse, validate, dispatch to the builtin
handler, otherwise report `command not found` — with the message chosen by
whether `exec.LookPath` resolves the name (`lookPathOk`).  No branch
spawns a process or registers a job. -/
def processInput (jm : JobManager) (lookPathOk : String → Bool)
    (sigOk : Bool) (now : Nat) (input : String) :
    JobManager × Option ShellError :=
  match Parse input with
  | none => (jm, none)
  | some parsed =>
    match ValidateCommand (some parsed) with
    | some e => (jm, some (.validation e))
    | none =>
      if IsBuiltinCommand parsed.command then
        HandleCommand jm parsed sigOk now
      else if lookPathOk parsed.command = false then
        (jm, some (.notFound parsed.command))
      else
        (jm, some (.notSupported parsed.command))

/-! ## Helper lemmas -/

/-- The separators the tokenizer honours outside quote spans: space and
tab (the two cases of the Go loop's whitespace branch). -/
def isTokenSep (c : Char) : Bool :=
  c = ' ' ∨ c = '\t'

/-- Prepend a pending partial token onto the first chunk of a chunk list
(`[t]` when there is no chunk). -/
def consFirst (t : List Char) : List (List Char) → List (List Char)
  | [] => [t]
  | u :: us => (t ++ u) :: us

/-- Inside a quote span opened by `q`, every character other than `q`
(whitespace and the other quote character included) is appended to the
current token literally, one after the other. -/
theorem tokenizeAux_span (q : Char) (tail : List Char) :
    ∀ (m current : List Char), (∀ c ∈ m, c ≠ q) →
      tokenizeAux (m ++ tail) current true q =
        tokenizeAux tail (current ++ m) true q := by
  intro m
  induction m with
  | nil => intro current hm; simp
  | cons c m2 ih =>
    intro current hm
    have hc : c ≠ q := hm c (List.mem_cons_self c m2)
    have hm2 : ∀ x ∈ m2, x ≠ q := fun x hx => hm x (List.mem_cons_of_mem c hx)
    have hstep : tokenizeAux ((c :: m2) ++ tail) current true q =
        tokenizeAux (m2 ++ tail) (current ++ [c]) true q := by
      simp only [List.cons_append, tokenizeAux]
      by_cases h1 : c = '"' ∨ c = squote
      · rw [if_pos h1]
        simp [hc]
      · rw [if_neg h1]
        by_cases h2 : c = ' ' ∨ c = '\t'
        · rw [if_pos h2]
          simp
        · rw [if_neg h2]
          simp
    rw [hstep, ih (current ++ [c]) hm2]
    simp [List.append_assoc]

/-- On quote-free input and from a quote-free state, the tokenizer is
exactly splitting on separator runs: the result is the `splitOnP` chunks
— with the pending token glued onto the first chunk — minus the empty
chunks that separator runs produce. -/
theorem tokenizeAux_no_quotes :
    ∀ (s current : List Char), (∀ c ∈ s, ¬ (c = '"' ∨ c = squote)) →
      tokenizeAux s current false nulChar =
        (consFirst current (s.splitOnP isTokenSep)).filter
          (fun t => !t.isEmpty) := by
  intro s
  induction s with
  | nil =>
    intro current hs
    cases current with
    | nil => simp [tokenizeAux, consFirst]
    | cons a as => simp [tokenizeAux, consFirst]
  | cons c s2 ih =>
    intro current hs
    have hc : ¬ (c = '"' ∨ c = squote) := hs c (List.mem_cons_self c s2)
    have hs2 : ∀ x ∈ s2, ¬ (x = '"' ∨ x = squote) :=
      fun x hx => hs x (List.mem_cons_of_mem c hx)
    obtain ⟨u, us, hts⟩ : ∃ u us, s2.splitOnP isTokenSep = u :: us := by
      cases hts : s2.splitOnP isTokenSep with
      | nil => exact absurd hts (List.splitOnP_ne_nil _ _)
      | cons u us => exact ⟨u, us, rfl⟩
    by_cases h2 : c = ' ' ∨ c = '\t'
    · have hsep : isTokenSep c = true := by simp [isTokenSep, h2]
      rw [show (c :: s2).splitOnP isTokenSep = [] :: s2.splitOnP isTokenSep
        by rw [List.splitOnP_cons, if_pos hsep]]
      simp only [tokenizeAux]
      rw [if_neg hc, if_pos h2]
      cases current with
      | nil =>
        simp only [List.isEmpty_nil, Bool.false_eq_true, if_false,
          Bool.true_eq_false, reduceIte]
        rw [ih [] hs2, hts]
        simp [consFirst]
      | cons a as =>
        simp only [List.isEmpty_cons, Bool.false_eq_true, if_false,
          Bool.true_eq_false, reduceIte]
        rw [ih [] hs2, hts]
        simp [consFirst]
    · have hsep : ¬ isTokenSep c = true := by simp [isTokenSep, h2]
      rw [show (c :: s2).splitOnP isTokenSep =
          (s2.splitOnP isTokenSep).modifyHead (List.cons c)
        by rw [List.splitOnP_cons, if_neg hsep]]
      simp only [tokenizeAux]
      rw [if_neg hc, if_neg h2, ih (current ++ [c]) hs2, hts]
      simp [consFirst, List.append_assoc]

theorem firstLongArg_isSome (l : List String) (i : Nat) :
    (firstLongArg l i).isSome = true ↔ ∃ a ∈ l, 1024 < a.length := by
  induction l generalizing i with
  | nil => simp [firstLongArg]
  | cons a rest ih =>
    by_cases h : 1024 < a.length
    · simp [firstLongArg, h]
    · simp [firstLongArg, h, ih]

theorem getJob_updateJob (l : List Job) (i : Nat) (f : Job → Job)
    (hf : ∀ x, (f x).id = x.id) (j : Job)
    (h : l.find? (fun x => x.id == i) = some j) :
    (updateJob l i f).find? (fun x => x.id == i) = some (f j) := by
  induction l with
  | nil => simp at h
  | cons a rest ih =>
    by_cases ha : a.id = i
    · rw [List.find?_cons_of_pos _ (by simp [ha])] at h
      have haj : a = j := by simpa using h
      subst haj
      have : (updateJob (a :: rest) i f) = f a :: updateJob rest i f := by
        simp [updateJob, ha]
      rw [this, List.find?_cons_of_pos _ (by simp [hf, ha])]
    · rw [List.find?_cons_of_neg _ (by simp [ha])] at h
      have : (updateJob (a :: rest) i f) = a :: updateJob rest i f := by
        simp [updateJob, ha]
      rw [this, List.find?_cons_of_neg _ (by simp [ha])]
      exact ih h

theorem updateJob_map_id (l : List Job) (i : Nat) (f : Job → Job)
    (hf : ∀ x, (f x).id = x.id) :
    (updateJob l i f).map Job.id = l.map Job.id := by
  induction l with
  | nil => rfl
  | cons a rest ih =>
    by_cases h : a.id = i
    · simp [updateJob, h, hf] at ih ⊢
      exact ih
    · simp [updateJob, h] at ih ⊢
      exact ih

theorem WF_filter (jm : JobManager) (p : Job → Bool) (hwf : WF jm) :
    WF { jm with jobs := jm.jobs.filter p } := by
  obtain ⟨hb, hn⟩ := hwf
  refine ⟨fun j hj => hb j (List.mem_of_mem_filter hj), ?_⟩
  exact List.Nodup.sublist (List.Sublist.map _ (List.filter_sublist _)) hn

theorem WF_update (jm : JobManager) (i : Nat) (f : Job → Job)
    (hf : ∀ x, (f x).id = x.id) (hwf : WF jm) :
    WF { jm with jobs := updateJob jm.jobs i f } := by
  obtain ⟨hb, hn⟩ := hwf
  constructor
  · intro j hj
    simp only [updateJob, List.mem_map] at hj
    obtain ⟨x, hx, hjx⟩ := hj
    have hxb := hb x hx
    by_cases hid : x.id = i
    · simp only [hid, beq_self_eq_true, if_true] at hjx
      subst hjx
      simpa [hf] using hxb
    · simp only [beq_iff_eq, hid, if_false] at hjx
      subst hjx
      exact hxb
  · simpa [updateJob_map_id jm.jobs i f hf] using hn

theorem counter_BringToForeground (jm : JobManager) (i : Nat) (s : Bool)
    (n : Nat) : (jm.BringToForeground i s n).jm.jobCounter = jm.jobCounter := by
  unfold JobManager.BringToForeground
  cases h : jm.GetJob i with
  | none => rfl
  | some job =>
    simp only
    split
    · rfl
    · split
      · split
        · rfl
        · rfl
      · rfl

theorem counter_ResumeInBackground (jm : JobManager) (i : Nat) (s : Bool) :
    (jm.ResumeInBackground i s).jm.jobCounter = jm.jobCounter := by
  unfold JobManager.ResumeInBackground
  cases h : jm.GetJob i with
  | none => rfl
  | some job =>
    simp only
    split
    · rfl
    · split
      · rfl
      · split
        · split
          · rfl
          · rfl
        · rfl

theorem counter_KillJob (jm : JobManager) (i : Nat) (s : Bool) (n : Nat) :
    (jm.KillJob i s n).jm.jobCounter = jm.jobCounter := by
  unfold JobManager.KillJob
  cases h : jm.GetJob i with
  | none => rfl
  | some job =>
    simp only
    split
    · rfl
    · split
      · split
        · rfl
        · rfl
      · rfl

theorem WF_BringToForeground (jm : JobManager) (i : Nat) (s : Bool)
    (n : Nat) (hwf : WF jm) : WF (jm.BringToForeground i s n).jm := by
  unfold JobManager.BringToForeground
  cases h : jm.GetJob i with
  | none => exact hwf
  | some job =>
    simp only
    split
    · exact hwf
    · split
      · split
        · exact hwf
        · exact WF_filter jm _ hwf
      · exact WF_filter jm _ hwf

theorem WF_ResumeInBackground (jm : JobManager) (i : Nat) (s : Bool)
    (hwf : WF jm) : WF (jm.ResumeInBackground i s).jm := by
  unfold JobManager.ResumeInBackground
  cases h : jm.GetJob i with
  | none => exact hwf
  | some job =>
    simp only
    split
    · exact hwf
    · split
      · exact hwf
      · split
        · split
          · exact hwf
          · exact WF_update jm i _ (fun x => rfl) hwf
        · exact hwf

theorem WF_KillJob (jm : JobManager) (i : Nat) (s : Bool) (n : Nat)
    (hwf : WF jm) : WF (jm.KillJob i s n).jm := by
  unfold JobManager.KillJob
  cases h : jm.GetJob i with
  | none => exact hwf
  | some job =>
    simp only
    split
    · exact hwf
    · split
      · split
        · exact hwf
        · exact WF_update jm i _ (fun x => rfl) hwf
      · exact hwf

/-! ## Claims -/

/-- C7, stated in full generality over every input line: (1) on
quote-free input, tokenization is exactly splitting on runs of spaces
and tabs (the non-empty `splitOnP` chunks); (2) a quote character `q`
opens a span that the identical character closes: the span's characters
— whitespace and the other quote character included, any character other
than `q` — are transferred literally into the current token while the
two `q` characters themselves are stripped; (3) an unterminated quote
span absorbs the whole rest of the input literally and closes at end of
input; (4) every character that is not a quote, space or tab — a
backslash in particular — is consumed literally as one character, so no
escape sequences are processed.  Finally the spec's two ground examples
and two more instances. -/
theorem tokenize_quote_spec :
    (∀ s : List Char, (∀ c ∈ s, ¬ (c = '"' ∨ c = squote)) →
      tokenize (String.mk s) =
        ((s.splitOnP isTokenSep).filter (fun t => !t.isEmpty)).map
          (fun cs => String.mk cs)) ∧
    (∀ q, (q = '"' ∨ q = squote) → ∀ m, (∀ c ∈ m, c ≠ q) →
      ∀ rest current,
      tokenizeAux (q :: (m ++ q :: rest)) current false nulChar =
        tokenizeAux rest (current ++ m) false nulChar) ∧
    (∀ q, (q = '"' ∨ q = squote) → ∀ m, (∀ c ∈ m, c ≠ q) → ∀ current,
      tokenizeAux (q :: m) current false nulChar =
        (if (current ++ m).isEmpty then [] else [current ++ m])) ∧
    (∀ c, ¬ (c = '"' ∨ c = squote) → ¬ (c = ' ' ∨ c = '\t') →
      ∀ rest current inQuotes quoteChar,
      tokenizeAux (c :: rest) current inQuotes quoteChar =
        tokenizeAux rest (current ++ [c]) inQuotes quoteChar) ∧
    tokenize "a \"b c\" d" = ["a", "b c", "d"] ∧
    tokenize "a \"b c" = ["a", "b c"] ∧
    tokenize (String.mk ['a', ' ', squote, 'b', '\t', 'c', '"', 'd', '"',
        squote, ' ', 'e']) =
      ["a", String.mk ['b', '\t', 'c', '"', 'd', '"'], "e"] ∧
    tokenize "a\\nb  \t c" = ["a\\nb", "c"] := by
  have hopen : ∀ (q : Char), (q = '"' ∨ q = squote) → ∀ X cur,
      tokenizeAux (q :: X) cur false nulChar = tokenizeAux X cur true q := by
    intro q hq X cur
    simp only [tokenizeAux]
    rw [if_pos hq]
    simp
  have hclose : ∀ (q : Char), (q = '"' ∨ q = squote) → ∀ X cur,
      tokenizeAux (q :: X) cur true q = tokenizeAux X cur false nulChar := by
    intro q hq X cur
    simp only [tokenizeAux]
    rw [if_pos hq]
    simp
  refine ⟨?_, ?_, ?_, ?_, ?_, ?_, ?_, ?_⟩
  · intro s hs
    show (tokenizeAux s [] false nulChar).map (fun cs => String.mk cs) = _
    rw [tokenizeAux_no_quotes s [] hs]
    obtain ⟨u, us, hts⟩ : ∃ u us, s.splitOnP isTokenSep = u :: us := by
      cases hts : s.splitOnP isTokenSep with
      | nil => exact absurd hts (List.splitOnP_ne_nil _ _)
      | cons u us => exact ⟨u, us, rfl⟩
    rw [hts]
    simp [consFirst]
  · intro q hq m hm rest current
    rw [hopen q hq, tokenizeAux_span q (q :: rest) m current hm,
      hclose q hq]
  · intro q hq m hm current
    rw [hopen q hq]
    have h1 := tokenizeAux_span q [] m current hm
    rw [List.append_nil] at h1
    rw [h1]
    simp [tokenizeAux]
  · intro c h1 h2 rest current inQuotes quoteChar
    simp only [tokenizeAux]
    rw [if_neg h1, if_neg h2]
  · rfl
  · rfl
  · rfl
  · rfl

/-- Witness for C7: each universal clause discharged at a concrete
input — a quote-free line, a closed double-quote span holding a space, an
unterminated span holding the other quote character, and a backslash
consumed as an ordinary character. -/
theorem tokenize_quote_spec_witness :
    tokenize (String.mk ['x', 'y', ' ', 'z']) =
      (((['x', 'y', ' ', 'z'].splitOnP isTokenSep).filter
        (fun t => !t.isEmpty)).map (fun cs => String.mk cs)) ∧
    tokenizeAux ('"' :: (['b', ' ', 'c'] ++ '"' :: [' ', 'd'])) []
        false nulChar =
      tokenizeAux [' ', 'd'] ([] ++ ['b', ' ', 'c']) false nulChar ∧
    tokenizeAux ('"' :: ['b', ' ', squote]) ['a'] false nulChar =
      (if (['a'] ++ ['b', ' ', squote]).isEmpty then []
       else [['a'] ++ ['b', ' ', squote]]) ∧
    tokenizeAux ('\\' :: ['n']) [] false nulChar =
      tokenizeAux ['n'] ([] ++ ['\\']) false nulChar :=
  ⟨tokenize_quote_spec.1 ['x', 'y', ' ', 'z'] (by decide),
   tokenize_quote_spec.2.1 '"' (Or.inl rfl) ['b', ' ', 'c'] (by decide)
     [' ', 'd'] [],
   tokenize_quote_spec.2.2.1 '"' (Or.inl rfl) ['b', ' ', squote]
     (by decide) ['a'],
   tokenize_quote_spec.2.2.2.1 '\\' (by decide) (by decide) ['n'] []
     false nulChar⟩

/-- C5: `CleanupCompletedJobs` removes exactly the jobs in status `Done`:
membership in the resulting table holds iff the job was present and not
`Done` (surviving records are unchanged), the result is a sublist of the
original table (relative order of the remaining entries, hence of their
ids, is preserved), and the id counter is untouched. -/
theorem CleanupCompletedJobs_spec (jm : JobManager) :
    (∀ j : Job, j ∈ jm.CleanupCompletedJobs.jobs ↔
      (j ∈ jm.jobs ∧ j.status ≠ .Done)) ∧
    jm.CleanupCompletedJobs.jobs.Sublist jm.jobs ∧
    jm.CleanupCompletedJobs.jobCounter = jm.jobCounter := by
  refine ⟨fun j => ?_, List.filter_sublist _, rfl⟩
  simp [JobManager.CleanupCompletedJobs, List.mem_filter]

/-- C3: whenever `BringToForeground`, `ResumeInBackground` or `KillJob`
returns an error (not found, already done, not stopped, or
signal-delivery failure), the job table is left exactly as it was: no
status, background flag or end time changes and no entry is added or
removed. -/
theorem jobOps_error_unchanged (jm : JobManager) (jobID : Nat)
    (sigOk : Bool) (now : Nat) :
    (∀ e, (jm.BringToForeground jobID sigOk now).out = .error e →
      (jm.BringToForeground jobID sigOk now).jm = jm) ∧
    (∀ e, (jm.ResumeInBackground jobID sigOk).out = .error e →
      (jm.ResumeInBackground jobID sigOk).jm = jm) ∧
    (∀ e, (jm.KillJob jobID sigOk now).out = .error e →
      (jm.KillJob jobID sigOk now).jm = jm) := by
  refine ⟨fun e he => ?_, fun e he => ?_, fun e he => ?_⟩
  · unfold JobManager.BringToForeground at he ⊢
    cases h : jm.GetJob jobID with
    | none => rfl
    | some job => simp only [h] at he ⊢; split <;> simp_all <;> split <;>
        simp_all <;> split <;> simp_all
  · unfold JobManager.ResumeInBackground at he ⊢
    cases h : jm.GetJob jobID with
    | none => rfl
    | some job => simp only [h] at he ⊢; split <;> simp_all <;> split <;>
        simp_all <;> split <;> simp_all <;> split <;> simp_all
  · unfold JobManager.KillJob at he ⊢
    cases h : jm.GetJob jobID with
    | none => rfl
    | some job => simp only [h] at he ⊢; split <;> simp_all <;> split <;>
        simp_all <;> split <;> simp_all

/-- Witness for C3 at a concrete input: `BringToForeground` on an unknown
id over the empty table fails and leaves the table unchanged. -/
theorem jobOps_error_unchanged_witness :
    (NewJobManager.BringToForeground 1 true 0).jm = NewJobManager :=
  (jobOps_error_unchanged NewJobManager 1 true 0).1 (.notFound 1) rfl

/-- C8: `ValidateCommand` accepts every empty command, and rejects a
non-empty parsed command iff its name contains the substring `..`, or
one of the characters `| ; & < > ( ) \x7b \x7d [ ]`, or is longer than
256 characters, or some single argument is longer than 1024 characters,
or there are more than 100 arguments in total. -/
theorem ValidateCommand_spec :
    ValidateCommand none = none ∧
    (∀ p : ParsedCommand, p.command = "" → ValidateCommand (some p) = none) ∧
    (∀ p : ParsedCommand, p.command ≠ "" →
      ((ValidateCommand (some p)).isSome = true ↔
        (listContainsSub ['.', '.'] p.command.data = true ∨
         p.command.data.any isSpecialChar = true ∨
         256 < p.command.length ∨
         (∃ a ∈ p.args, 1024 < a.length) ∨
         100 < p.args.length))) := by
  refine ⟨rfl, fun p h => by simp [ValidateCommand, h], fun p h => ?_⟩
  by_cases h1 : listContainsSub ['.', '.'] p.command.data = true
  · simp [ValidateCommand, h, h1]
  by_cases h2 : p.command.data.any isSpecialChar = true
  · simp [ValidateCommand, h, h1, h2]
  by_cases h3 : 256 < p.command.length
  · simp [ValidateCommand, h, h1, h2, h3]
  by_cases h4 : ∃ a ∈ p.args, 1024 < a.length
  · have h4s : (firstLongArg p.args 0).isSome = true :=
      (firstLongArg_isSome p.args 0).mpr h4
    obtain ⟨i, hi⟩ := Option.isSome_iff_exists.mp h4s
    simp [ValidateCommand, h, h1, h2, h3, hi, h4]
  · have h4n : firstLongArg p.args 0 = none := by
      cases hfl : firstLongArg p.args 0 with
      | none => rfl
      | some i =>
        exact absurd ((firstLongArg_isSome p.args 0).mp (by simp [hfl])) h4
    by_cases h5 : 100 < p.args.length
    · simp [ValidateCommand, h, h1, h2, h3, h4n, h4, h5]
    · simp [ValidateCommand, h, h1, h2, h3, h4n, h4, h5]

/-- A stopped background job with a live process handle, as produced by
registration followed by a stop signal. -/
def jobStopped : Job :=
  { id := 1, pid := 42, command := "sleep 5", status := .Stopped,
    hasProcess := true, startTime := 0, endTime := none, background := true }

/-- A running background job with a live process handle. -/
def jobRunning : Job :=
  { id := 2, pid := 43, command := "sleep 9", status := .Running,
    hasProcess := true, startTime := 0, endTime := none, background := true }

/-- A two-entry job table. -/
def jmTwo : JobManager := { jobs := [jobStopped, jobRunning], jobCounter := 2 }

/-- C1: on a tracked job that is not `Done` (with its live process handle,
and the continue signal deliverable), `BringToForeground` delivers a
continue signal exactly when the job was `Stopped`, drives the record
through `Running` with `background = false`, waits for the process to
exit, marks the record `Done` with `endTime = now`, and deletes the entry,
so no job with that id appears in a subsequent `GetAllJobs` listing. -/
theorem BringToForeground_spec (jm : JobManager) (j : Job) (now : Nat)
    (hget : jm.GetJob j.id = some j) (hnd : j.status ≠ .Done)
    (hproc : j.hasProcess = true) :
    (jm.BringToForeground j.id true now).out =
      .ok ⟨fgRunning j, fgDone j now, true⟩ ∧
    (jm.BringToForeground j.id true now).signals =
      (if j.status = .Stopped then [Signal.sigcont] else []) ∧
    (jm.BringToForeground j.id true now).jm.jobs = removeJob jm.jobs j.id ∧
    (∀ k ∈ (jm.BringToForeground j.id true now).jm.GetAllJobs,
      k.id ≠ j.id) := by
  have hbfg : jm.BringToForeground j.id true now =
      ⟨{ jm with jobs := removeJob jm.jobs j.id },
        (if j.status = .Stopped then [Signal.sigcont] else []),
        .ok ⟨fgRunning j, fgDone j now, true⟩⟩ := by
    simp [JobManager.BringToForeground, hget, hnd, hproc, fgRunning, fgDone]
  refine ⟨by rw [hbfg], by rw [hbfg], by rw [hbfg], ?_⟩
  rw [hbfg]
  intro k hk
  simp only [JobManager.GetAllJobs, removeJob, List.mem_filter,
    bne_iff_ne, ne_eq] at hk
  exact hk.2

/-- Witness for C1: foregrounding the stopped job of the two-entry table
completes it and removes it. -/
theorem BringToForeground_spec_witness :
    (jmTwo.BringToForeground jobStopped.id true 7).out =
      .ok ⟨fgRunning jobStopped, fgDone jobStopped 7, true⟩ ∧
    (jmTwo.BringToForeground jobStopped.id true 7).signals =
      (if jobStopped.status = .Stopped then [Signal.sigcont] else []) ∧
    (jmTwo.BringToForeground jobStopped.id true 7).jm.jobs =
      removeJob jmTwo.jobs jobStopped.id ∧
    (∀ k ∈ (jmTwo.BringToForeground jobStopped.id true 7).jm.GetAllJobs,
      k.id ≠ jobStopped.id) :=
  BringToForeground_spec jmTwo jobStopped 7 rfl (by decide) rfl

/-- C2: `KillJob` on a registered job in status `Running` (live process
handle, deliverable signal) succeeds, delivers the kill signal, rewrites
the record to status `Done` with `endTime = now`, and a second `KillJob`
on the same id then returns the already-completed error. -/
theorem KillJob_spec (jm : JobManager) (j : Job) (now nowB : Nat)
    (sigB : Bool) (hget : jm.GetJob j.id = some j)
    (hrun : j.status = .Running) (hproc : j.hasProcess = true) :
    (jm.KillJob j.id true now).out = .ok () ∧
    (jm.KillJob j.id true now).signals = [Signal.kill] ∧
    (jm.KillJob j.id true now).jm.GetJob j.id = some (killUpd now j) ∧
    ((jm.KillJob j.id true now).jm.KillJob j.id sigB nowB).out =
      .error (.alreadyDone j.id) := by
  have hget0 : jm.jobs.find? (fun x => x.id == j.id) = some j := hget
  have hkill : jm.KillJob j.id true now =
      ⟨{ jm with jobs := updateJob jm.jobs j.id (killUpd now) },
        [Signal.kill], .ok ()⟩ := by
    simp [JobManager.KillJob, hget, hrun, hproc, killUpd]
  have hget2 : JobManager.GetJob
      { jm with jobs := updateJob jm.jobs j.id (killUpd now) } j.id =
      some (killUpd now j) :=
    getJob_updateJob jm.jobs j.id (killUpd now) (fun x => rfl) j hget0
  have hsecond : (JobManager.KillJob
      { jm with jobs := updateJob jm.jobs j.id (killUpd now) } j.id
      sigB nowB).out = .error (.alreadyDone j.id) := by
    simp [JobManager.KillJob, hget2, killUpd]
  refine ⟨by rw [hkill], by rw [hkill], ?_, ?_⟩
  · rw [hkill]; exact hget2
  · rw [hkill]; exact hsecond

/-- Witness for C2: killing the running job of the two-entry table, then
killing it again. -/
theorem KillJob_spec_witness :
    (jmTwo.KillJob jobRunning.id true 3).out = .ok () ∧
    (jmTwo.KillJob jobRunning.id true 3).signals = [Signal.kill] ∧
    (jmTwo.KillJob jobRunning.id true 3).jm.GetJob jobRunning.id =
      some (killUpd 3 jobRunning) ∧
    ((jmTwo.KillJob jobRunning.id true 3).jm.KillJob jobRunning.id
      true 9).out = .error (.alreadyDone jobRunning.id) :=
  KillJob_spec jmTwo jobRunning 3 9 true rfl rfl rfl

/-- C4: `ResumeInBackground` fails with the not-found error when the id is
absent, the already-completed error when the job is `Done`, and the
not-stopped error when the status is anything else other than `Stopped`
(each failure leaving the table unchanged); on a `Stopped` job (live
process handle, deliverable signal) it delivers exactly one continue
signal, rewrites the record to `Running` with `background = true`, and
keeps the job in the table. -/
theorem ResumeInBackground_spec (jm : JobManager) (jobID : Nat)
    (sigOk : Bool) :
    (jm.GetJob jobID = none →
      (jm.ResumeInBackground jobID sigOk).out = .error (.notFound jobID) ∧
      (jm.ResumeInBackground jobID sigOk).jm = jm) ∧
    (∀ j, jm.GetJob jobID = some j → j.status = .Done →
      (jm.ResumeInBackground jobID sigOk).out =
        .error (.alreadyDone jobID) ∧
      (jm.ResumeInBackground jobID sigOk).jm = jm) ∧
    (∀ j, jm.GetJob jobID = some j → j.status ≠ .Done →
      j.status ≠ .Stopped →
      (jm.ResumeInBackground jobID sigOk).out =
        .error (.notStopped jobID) ∧
      (jm.ResumeInBackground jobID sigOk).jm = jm) ∧
    (∀ j, jm.GetJob jobID = some j → j.status = .Stopped →
      j.hasProcess = true → sigOk = true →
      (jm.ResumeInBackground jobID sigOk).out = .ok () ∧
      (jm.ResumeInBackground jobID sigOk).signals = [Signal.sigcont] ∧
      (jm.ResumeInBackground jobID sigOk).jm.GetJob jobID =
        some (bgUpd j) ∧
      (jm.ResumeInBackground jobID sigOk).jm.jobs.length =
        jm.jobs.length) := by
  refine ⟨fun h => ?_, fun j hget hd => ?_, fun j hget hd hs => ?_,
    fun j hget hs hproc hsig => ?_⟩
  · constructor <;> simp [JobManager.ResumeInBackground, h]
  · constructor <;> simp [JobManager.ResumeInBackground, hget, hd]
  · constructor <;> simp [JobManager.ResumeInBackground, hget, hd, hs]
  · subst hsig
    have hget0 : jm.jobs.find? (fun x => x.id == jobID) = some j := hget
    have hrib : jm.ResumeInBackground jobID true =
        ⟨{ jm with jobs := updateJob jm.jobs jobID bgUpd },
          [Signal.sigcont], .ok ()⟩ := by
      simp [JobManager.ResumeInBackground, hget, hs, hproc, bgUpd]
    have hupd : JobManager.GetJob
        { jm with jobs := updateJob jm.jobs jobID bgUpd } jobID =
        some (bgUpd j) :=
      getJob_updateJob jm.jobs jobID bgUpd (fun x => rfl) j hget0
    refine ⟨by rw [hrib], by rw [hrib], ?_, ?_⟩
    · rw [hrib]; exact hupd
    · rw [hrib]; simp [updateJob]

/-- Witness for C4: resuming the stopped job of the two-entry table. -/
theorem ResumeInBackground_spec_witness :
    (jmTwo.ResumeInBackground jobStopped.id true).out = .ok () ∧
    (jmTwo.ResumeInBackground jobStopped.id true).signals =
      [Signal.sigcont] ∧
    (jmTwo.ResumeInBackground jobStopped.id true).jm.GetJob jobStopped.id =
      some (bgUpd jobStopped) ∧
    (jmTwo.ResumeInBackground jobStopped.id true).jm.jobs.length =
      jmTwo.jobs.length :=
  (ResumeInBackground_spec jmTwo jobStopped.id true).2.2.2 jobStopped
    rfl rfl rfl rfl

/-- C6: within one table instance, `register` allocates strictly
increasing positive ids: a call returns `jobCounter + 1` (strictly above
every id ever issued, since all table ids are bounded by the counter and
the counter never decreases — in particular an id removed earlier is
never reused), the immediately following call returns the next integer,
well-formedness (at most one record per id, ids positive and bounded
by the counter) is preserved by `register` and by every table operation,
and no table operation other than `register` ever changes the
counter. -/
theorem register_spec (jm : JobManager) (pid pid2 : Nat)
    (cmd cmd2 : String) (bg bg2 : Bool) (now now2 : Nat) (i : Nat)
    (sig : Bool) (hwf : WF jm) :
    ((jm.register pid cmd bg now).2 = jm.jobCounter + 1 ∧
     0 < (jm.register pid cmd bg now).2 ∧
     (∀ j ∈ jm.jobs, j.id < (jm.register pid cmd bg now).2) ∧
     ((jm.register pid cmd bg now).1.register pid2 cmd2 bg2 now2).2 =
       (jm.register pid cmd bg now).2 + 1 ∧
     WF (jm.register pid cmd bg now).1) ∧
    WF (jm.BringToForeground i sig now).jm ∧
    WF (jm.ResumeInBackground i sig).jm ∧
    WF (jm.KillJob i sig now).jm ∧
    WF jm.CleanupCompletedJobs ∧
    (jm.BringToForeground i sig now).jm.jobCounter = jm.jobCounter ∧
    (jm.ResumeInBackground i sig).jm.jobCounter = jm.jobCounter ∧
    (jm.KillJob i sig now).jm.jobCounter = jm.jobCounter ∧
    jm.CleanupCompletedJobs.jobCounter = jm.jobCounter := by
  obtain ⟨hb, hn⟩ := hwf
  have hlt : ∀ j ∈ jm.jobs, j.id < jm.jobCounter + 1 := by
    intro j hj
    have := (hb j hj).2
    omega
  have hfresh : (jm.jobCounter + 1) ∉ jm.jobs.map Job.id := by
    intro hmem
    obtain ⟨j, hj, hid⟩ := List.mem_map.mp hmem
    have := (hb j hj).2
    omega
  refine ⟨⟨rfl, Nat.succ_pos _, hlt, rfl, ?_, ?_⟩,
    WF_BringToForeground jm i sig now ⟨hb, hn⟩,
    WF_ResumeInBackground jm i sig ⟨hb, hn⟩,
    WF_KillJob jm i sig now ⟨hb, hn⟩,
    WF_filter jm _ ⟨hb, hn⟩,
    counter_BringToForeground jm i sig now,
    counter_ResumeInBackground jm i sig,
    counter_KillJob jm i sig now, rfl⟩
  · intro j hj
    simp only [JobManager.register, List.mem_append, List.mem_singleton]
      at hj
    rcases hj with hj | hj
    · have := hb j hj
      constructor
      · exact this.1
      · simp [JobManager.register]
        omega
    · subst hj
      simp [JobManager.register]
  · simp only [JobManager.register, List.map_append, List.map_cons,
      List.map_nil]
    rw [List.nodup_append]
    refine ⟨hn, List.nodup_singleton _, ?_⟩
    intro a ha hb2
    simp only [List.mem_singleton] at hb2
    subst hb2
    exact hfresh ha

/-- Witness for C6: the first registration on a fresh table issues id 1
and preserves well-formedness. -/
theorem register_spec_witness :
    (NewJobManager.register 11 "sleep 5" true 0).2 =
      NewJobManager.jobCounter + 1 ∧
    WF (NewJobManager.register 11 "sleep 5" true 0).1 :=
  ⟨(register_spec NewJobManager 11 12 "sleep 5" "cat x" true false 0 1 1
      true ⟨fun j hj => absurd hj (by simp [NewJobManager]),
        by simp [NewJobManager]⟩).1.1,
   (register_spec NewJobManager 11 12 "sleep 5" "cat x" true false 0 1 1
      true ⟨fun j hj => absurd hj (by simp [NewJobManager]),
        by simp [NewJobManager]⟩).1.2.2.2.2⟩

/-- C9: for every input line that parses to a validated non-empty command
whose name is not a builtin, `processInput` reports a command-not-found
error — choosing between the two messages solely by whether the name
resolves on the system path — leaves the job table exactly unchanged (no
job is added), and follows no branch that spawns an external process
(the embedding of the dispatch path has no spawning or registering
branch at all). -/
theorem processInput_nonBuiltin (jm : JobManager)
    (lookPathOk : String → Bool) (sigOk : Bool) (now : Nat)
    (input : String) (p : ParsedCommand) (hp : Parse input = some p)
    (hv : ValidateCommand (some p) = none)
    (hnb : IsBuiltinCommand p.command = false) :
    processInput jm lookPathOk sigOk now input =
      (jm, some (if lookPathOk p.command then
        ShellError.notSupported p.command
      else ShellError.notFound p.command)) := by
  cases hl : lookPathOk p.command <;>
    simp [processInput, hp, hv, hnb, hl]

/-- Witness for C9: the non-builtin name `foobar`, unresolvable on the
path, over the empty table. -/
theorem processInput_nonBuiltin_witness :
    processInput NewJobManager (fun _ => false) true 0 "foobar x" =
      (NewJobManager, some (ShellError.notFound "foobar")) :=
  processInput_nonBuiltin NewJobManager (fun _ => false) true 0 "foobar x"
    { command := "foobar", args := ["foobar", "x"], background := false,
      pipes := [["foobar", "x"]] } rfl rfl rfl

/-- C10: when the job table is empty, `handleFG` and `handleBG` answer
every well-formed positive job-id argument with their `no jobs` error,
reached before any job-table lookup, and on no argument list whatsoever
can they surface the job-not-found error — that error is observable only
when the table holds at least one job. -/
theorem handleFGBG_emptyTable (jm : JobManager) (args : List String)
    (sigOk : Bool) (now : Nat) (hempty : jm.jobs = []) :
    ((∀ s k, args = ["fg", s] → Atoi s = some k → 0 < k →
      handleFG jm args sigOk now =
        (jm, some (.builtinErr "fg: no jobs to bring to foreground"))) ∧
     (∀ i, (handleFG jm args sigOk now).2 ≠
        some (.jobCtl (.notFound i)))) ∧
    ((∀ s k, args = ["bg", s] → Atoi s = some k → 0 < k →
      handleBG jm args sigOk =
        (jm, some (.builtinErr "bg: no jobs to resume in background"))) ∧
     (∀ i, (handleBG jm args sigOk).2 ≠
        some (.jobCtl (.notFound i)))) := by
  have hatoiEmpty : Atoi "" = none := rfl
  refine ⟨⟨fun s k hargs hk hkpos => ?_, fun i => ?_⟩,
    ⟨fun s k hargs hk hkpos => ?_, fun i => ?_⟩⟩
  · subst hargs
    have hs : ¬ s = "" := by
      intro h
      subst h
      rw [hatoiEmpty] at hk
      exact Option.noConfusion hk
    have hknpos : ¬ k ≤ 0 := by omega
    simp [handleFG, JobManager.GetAllJobs, hempty, hs, hk, hknpos]
  · simp only [handleFG, JobManager.GetAllJobs, hempty, List.length_nil]
    split
    · simp
    split
    · simp
    split
    · simp
    split
    · simp
    split
    · simp
    · simp
  · subst hargs
    have hs : ¬ s = "" := by
      intro h
      subst h
      rw [hatoiEmpty] at hk
      exact Option.noConfusion hk
    have hknpos : ¬ k ≤ 0 := by omega
    simp [handleBG, JobManager.GetAllJobs, hempty, hs, hk, hknpos]
  · simp only [handleBG, JobManager.GetAllJobs, hempty, List.length_nil]
    split
    · simp
    split
    · simp
    split
    · simp
    split
    · simp
    split
    · simp
    · simp

/-- Witness for C10: `fg 1` and `bg 1` on the empty table. -/
theorem handleFGBG_emptyTable_witness :
    handleFG NewJobManager ["fg", "1"] true 0 =
      (NewJobManager,
        some (.builtinErr "fg: no jobs to bring to foreground")) ∧
    handleBG NewJobManager ["bg", "1"] true =
      (NewJobManager,
        some (.builtinErr "bg: no jobs to resume in background")) :=
  ⟨(handleFGBG_emptyTable NewJobManager ["fg", "1"] true 0 rfl).1.1
      "1" 1 rfl rfl (by decide),
   (handleFGBG_emptyTable NewJobManager ["bg", "1"] true 0 rfl).2.1
      "1" 1 rfl rfl (by decide)⟩

/-- A concrete parsed command whose name contains `..`. -/
def cmdDotDot : ParsedCommand :=
  { command := "cd..", args := ["cd.."], background := false,
    pipes := [["cd.."]] }

/-- Witness for C8 at a concrete input: a name containing `..` is
rejected. -/
theorem ValidateCommand_spec_witness :
    (ValidateCommand (some cmdDotDot)).isSome = true :=
  (ValidateCommand_spec.2.2 cmdDotDot (by decide)).mpr
    (Or.inl (by decide))
